import Mathlib

/-!
Verification of the Krako capsule build script (`build_capsule.py`).

The script converts plain-text and Markdown documents into Gemtext. We give a
shallow embedding of its pure core over `List Char`: format detection, the two
line-rewrite engines (`convert_txt_to_gmi`, `convert_md_to_gmi`), filename
sanitisation, footer injection, and the navigation-block construction and
insertion of `build_collection`. Python's regex substitutions are embedded as
explicit left-to-right scans with the exact match semantics of the patterns
used by the source (`re.sub` scanning position by position, continuing after
each replaced match). Whitespace predicates model the ASCII part of Python's
`str.strip` / regex `\s`, and the `\w` class of `sanitize_filename` is
modelled by ASCII alphanumerics plus underscore.
-/

/-- ASCII model of Python's default whitespace set used by `str.strip` and `\s`. -/
def isPySpace (c : Char) : Bool :=
  c == ' ' || c == '\t' || c == '\n' || c == '\r' || c == '\x0b' || c == '\x0c'

/-- Python `str.lstrip()`. -/
def pyLstrip (l : List Char) : List Char := l.dropWhile isPySpace

/-- Python `str.rstrip()`. -/
def pyRstrip (l : List Char) : List Char := (l.reverse.dropWhile isPySpace).reverse

/-- Python `str.strip()`. -/
def pyStrip (l : List Char) : List Char := pyRstrip (pyLstrip l)

/-- Boolean prefix test, Python `str.startswith`. -/
def startsWithL : List Char → List Char → Bool
  | [], _ => true
  | _ :: _, [] => false
  | p :: ps, c :: cs => p == c && startsWithL ps cs

/-- Boolean substring test, Python's `in` operator on strings. -/
def containsSub (p : List Char) : List Char → Bool
  | [] => p.isEmpty
  | c :: rest => startsWithL p (c :: rest) || containsSub p rest

/-- Python `content.split('\n')`. -/
def splitLines : List Char → List (List Char)
  | [] => [[]]
  | c :: rest =>
    if c = '\n' then [] :: splitLines rest
    else
      match splitLines rest with
      | [] => [[c]]
      | l :: ls => (c :: l) :: ls

/-- Python `'\n'.join(result)`. -/
def joinNL : List (List Char) → List Char
  | [] => []
  | [l] => l
  | l :: ls => l ++ '\n' :: joinNL ls

/-!
Generic fuel-driven scan used to embed Python `re.sub`: at each position the
step function either consumes a match (emitting its replacement) or consumes
one character, carrying a state (used for the lookbehind of the italic
pattern). Fuel equal to the input length always suffices because every step
consumes at least the head character.
-/

/-- One pass of a regex-substitution scan, driven by fuel. -/
def scanS {σ : Type} (step : σ → Char → List Char → List Char × σ × List Char) :
    Nat → σ → List Char → List Char
  | 0, _, l => l
  | _ + 1, _, [] => []
  | f + 1, st, c :: rest =>
    let r := step st c rest
    r.1 ++ scanS step f r.2.1 r.2.2

/-- A step never returns a remainder longer than the tail it was given. -/
def Shrinks {σ : Type} (step : σ → Char → List Char → List Char × σ × List Char) : Prop :=
  ∀ st c rest, (step st c rest).2.2.length ≤ rest.length

theorem scanS_irrel {σ : Type} {step : σ → Char → List Char → List Char × σ × List Char}
    (H : Shrinks step) :
    ∀ f1 f2 st (l : List Char), l.length ≤ f1 → l.length ≤ f2 →
      scanS step f1 st l = scanS step f2 st l := by
  intro f1
  induction f1 with
  | zero =>
    intro f2 st l h1 _
    have : l = [] := List.length_eq_zero.mp (Nat.le_zero.mp h1)
    subst this
    cases f2 <;> rfl
  | succ f ih =>
    intro f2 st l h1 h2
    cases l with
    | nil => cases f2 <;> rfl
    | cons c rest =>
      cases f2 with
      | zero => simp at h2
      | succ f2 =>
        show (step st c rest).1 ++ scanS step f _ _ = (step st c rest).1 ++ scanS step f2 _ _
        congr 1
        exact ih f2 _ _ (Nat.le_trans (H st c rest) (Nat.le_of_succ_le_succ h1))
          (Nat.le_trans (H st c rest) (Nat.le_of_succ_le_succ h2))

/-- Run a substitution scan with enough fuel for the whole input. -/
def runScan {σ : Type} (step : σ → Char → List Char → List Char × σ × List Char)
    (st : σ) (l : List Char) : List Char :=
  scanS step l.length st l

theorem runScan_nil {σ : Type} (step : σ → Char → List Char → List Char × σ × List Char)
    (st : σ) : runScan step st [] = [] := rfl

theorem runScan_cons {σ : Type} {step : σ → Char → List Char → List Char × σ × List Char}
    (H : Shrinks step) (st : σ) (c : Char) (rest : List Char) :
    runScan step st (c :: rest) =
      (step st c rest).1 ++ runScan step (step st c rest).2.1 (step st c rest).2.2 := by
  show scanS step (rest.length + 1) st (c :: rest) = _
  show (step st c rest).1 ++ scanS step rest.length _ _ = _
  congr 1
  exact scanS_irrel H rest.length (step st c rest).2.2.length _ _ (H st c rest) Nat.le.refl

/-!
Steps for the four regex substitutions of `convert_md_to_gmi`.
-/

/-- Attempted match of the body of `[text](url)` after the opening bracket:
`[^\]]+` then `]` then `(` then `[^)]+` then `)`. Returns text, url, and the
remainder after the match. -/
def tryLinkBody (rest : List Char) : Option (List Char × List Char × List Char) :=
  let text := rest.takeWhile (· != ']')
  if text.isEmpty then none
  else
    match rest.dropWhile (· != ']') with
    | ']' :: '(' :: rest3 =>
      let url := rest3.takeWhile (· != ')')
      if url.isEmpty then none
      else
        match rest3.dropWhile (· != ')') with
        | ')' :: rem => some (text, url, rem)
        | _ => none
    | _ => none

/-- Scan step for `re.sub(r'\[([^\]]+)\]\(([^)]+)\)', '=> url text', line)`. -/
def linkStep (_ : Unit) (c : Char) (rest : List Char) : List Char × Unit × List Char :=
  if c = '[' then
    match tryLinkBody rest with
    | some (t, u, rem) => ("=> ".toList ++ u ++ ' ' :: t, (), rem)
    | none => ([c], (), rest)
  else ([c], (), rest)

/-- Split a character list at the first occurrence of two adjacent `*`. -/
def splitSS : List Char → Option (List Char × List Char)
  | [] => none
  | [_] => none
  | c :: d :: rest =>
    if c = '*' && d = '*' then some ([], rest)
    else (splitSS (d :: rest)).map (fun p => (c :: p.1, p.2))

/-- Scan step for `re.sub(r'\*\*(.+?)\*\*', r'\1', line)`: non-greedy inner
text of length at least one, which may itself contain single asterisks. -/
def boldStep (_ : Unit) (c : Char) (rest : List Char) : List Char × Unit × List Char :=
  match c, rest with
  | '*', '*' :: d :: r3 =>
    match splitSS r3 with
    | some (before, after) => (d :: before, (), after)
    | none => (['*'], (), rest)
  | _, _ => ([c], (), rest)

/-- Scan step for the plain italic pattern `re.sub(r'\*(.+?)\*', r'\1', item)`
used in the list branch: non-greedy inner text of length at least one. -/
def italPStep (_ : Unit) (c : Char) (rest : List Char) : List Char × Unit × List Char :=
  match c, rest with
  | '*', d :: r2 =>
    match r2.dropWhile (· != '*') with
    | '*' :: rem => (d :: r2.takeWhile (· != '*'), (), rem)
    | _ => (['*'], (), rest)
  | _, _ => ([c], (), rest)

/-- Scan step for `re.sub(r'(?<!\*)\*([^*]+?)\*(?!\*)', r'\1', line)`: the
state records whether the previous character of the original string was `*`
(the lookbehind), the inner text has no `*`, and the lookahead requires the
character after the closing `*` not to be `*`. -/
def italNAStep (prev : Bool) (c : Char) (rest : List Char) : List Char × Bool × List Char :=
  if c = '*' then
    if prev then (['*'], true, rest)
    else
      let inner := rest.takeWhile (· != '*')
      if inner.isEmpty then (['*'], true, rest)
      else
        match rest.dropWhile (· != '*') with
        | '*' :: rem =>
          if rem.head? == some '*' then (['*'], true, rest) else (inner, true, rem)
        | _ => (['*'], true, rest)
  else ([c], c = '*', rest)

/-!
Shrink facts for the steps, and the four substitution functions.
-/

theorem length_dropWhile_le2 (p : Char → Bool) (l : List Char) :
    (l.dropWhile p).length ≤ l.length := by
  induction l with
  | nil => simp
  | cons c rest ih =>
    rw [List.dropWhile_cons]
    split
    · exact Nat.le_trans ih (Nat.le_succ _)
    · exact Nat.le.refl

theorem tryLinkBody_length {rest : List Char} {t u rem : List Char}
    (h : tryLinkBody rest = some (t, u, rem)) : rem.length ≤ rest.length := by
  simp only [tryLinkBody] at h
  split at h
  · exact absurd h (by simp)
  · split at h
    next rest3 heq =>
      split at h
      · exact absurd h (by simp)
      · split at h
        next rem2 heq2 =>
          have h3 : (List.dropWhile (· != ']') rest).length ≤ rest.length :=
            length_dropWhile_le2 _ _
          have h4 : (List.dropWhile (· != ')') rest3).length ≤ rest3.length :=
            length_dropWhile_le2 _ _
          rw [heq] at h3
          rw [heq2] at h4
          simp only [Option.some.injEq, Prod.mk.injEq] at h
          obtain ⟨-, -, h5⟩ := h
          subst h5
          simp only [List.length_cons] at h3 h4
          omega
        · exact absurd h (by simp)
    · exact absurd h (by simp)

theorem linkStep_shrinks : Shrinks linkStep := by
  intro st c rest
  simp only [linkStep]
  split
  · split
    next t u rem heq => exact tryLinkBody_length heq
    · exact Nat.le.refl
  · exact Nat.le.refl

theorem splitSS_length : ∀ (l : List Char) {a b : List Char},
    splitSS l = some (a, b) → b.length + 2 + a.length = l.length := by
  intro l
  induction l with
  | nil => intro a b h; simp [splitSS] at h
  | cons c rest ih =>
    intro a b h
    cases rest with
    | nil => simp [splitSS] at h
    | cons d rest2 =>
      simp only [splitSS] at h
      split at h
      · simp only [Option.some.injEq, Prod.mk.injEq] at h
        obtain ⟨h1, h2⟩ := h
        subst h1; subst h2
        simp
      · simp only [Option.map_eq_some'] at h
        obtain ⟨⟨a1, b1⟩, hp, hq⟩ := h
        have := ih hp
        simp only [Prod.mk.injEq] at hq
        obtain ⟨h1, h2⟩ := hq
        subst h1; subst h2
        simp only [List.length_cons] at this ⊢
        omega

theorem boldStep_shrinks : Shrinks boldStep := by
  intro st c rest
  simp only [boldStep]
  split
  next d r3 =>
    split
    next before after heq =>
      have := splitSS_length r3 heq
      simp only [List.length_cons]
      omega
    · exact Nat.le.refl
  · exact Nat.le.refl

theorem italPStep_shrinks : Shrinks italPStep := by
  intro st c rest
  simp only [italPStep]
  split
  next d r2 =>
    split
    next rem heq =>
      have h3 : (List.dropWhile (· != '*') r2).length ≤ r2.length :=
        length_dropWhile_le2 _ _
      rw [heq] at h3
      simp only [List.length_cons] at h3 ⊢
      omega
    · exact Nat.le.refl
  · exact Nat.le.refl

theorem italNAStep_shrinks : Shrinks italNAStep := by
  intro st c rest
  simp only [italNAStep]
  split
  · split
    · exact Nat.le.refl
    · split
      · exact Nat.le.refl
      · split
        next rem heq =>
          split
          · exact Nat.le.refl
          · show rem.length ≤ rest.length
            have h3 : (List.dropWhile (· != '*') rest).length ≤ rest.length :=
              length_dropWhile_le2 _ _
            rw [heq] at h3
            simp only [List.length_cons] at h3
            omega
        · exact Nat.le.refl
  · exact Nat.le.refl

/-- Embedding of `re.sub(r'\[([^\]]+)\]\(([^)]+)\)', r'=> \2 \1', line)`. -/
def subLinks (l : List Char) : List Char := runScan linkStep () l

/-- Embedding of `re.sub(r'\*\*(.+?)\*\*', r'\1', line)`. -/
def subBold (l : List Char) : List Char := runScan boldStep () l

/-- Embedding of `re.sub(r'\*(.+?)\*', r'\1', item)` (list branch italics). -/
def subItalP (l : List Char) : List Char := runScan italPStep () l

/-- Embedding of `re.sub(r'(?<!\*)\*([^*]+?)\*(?!\*)', r'\1', line)`. -/
def subItalNA (l : List Char) : List Char := runScan italNAStep false l

/-- Number of matches of the bracket-paren link pattern in a left-to-right
scan, mirroring how many occurrences `re.sub` would replace. -/
def countLinkF : Nat → List Char → Nat
  | 0, _ => 0
  | _ + 1, [] => 0
  | f + 1, c :: rest =>
    if c = '[' then
      match tryLinkBody rest with
      | some (_, _, rem) => 1 + countLinkF f rem
      | none => countLinkF f rest
    else countLinkF f rest

/-- Number of bracket-paren link patterns found scanning left to right. -/
def countLinkOcc (l : List Char) : Nat := countLinkF l.length l

/-!
Embedding of `convert_txt_to_gmi`, `convert_md_to_gmi` and
`detect_file_format` from `build_capsule.py`.
-/

/-- Line test `re.match(r'^#{1,3}\s+', stripped)`: one to three `#` followed
by a whitespace character. -/
def isHeading13 (s : List Char) : Bool :=
  let n := (s.takeWhile (· == '#')).length
  decide (1 ≤ n ∧ n ≤ 3) &&
    (match (s.drop n).head? with
     | some c => isPySpace c
     | none => false)

/-- Line test `re.match(r'^-\s+', stripped)`: a hyphen followed by whitespace. -/
def isListLine (s : List Char) : Bool :=
  match s with
  | '-' :: c :: _ => isPySpace c
  | _ => false

/-- Fence toggle test `line.strip().startswith('```')`. -/
def isFenceLine (line : List Char) : Bool := startsWithL "```".toList (pyStrip line)

/-- The per-line rewrite of `convert_md_to_gmi` applied to a line outside a
fenced code block, in the source's branch order: heading, list item, link
line, blank, default text (with the horizontal-rule replacement). -/
def convertMdLine (line : List Char) : List Char :=
  let stripped := pyStrip line
  if isHeading13 stripped then stripped
  else if isListLine stripped then
    subItalP (subBold ('*' :: ' ' :: (stripped.drop 1).dropWhile isPySpace))
  else if containsSub [']', '('] line then subItalNA (subBold (subLinks line))
  else if stripped.isEmpty then []
  else if stripped = "---".toList then []
  else subItalNA (subBold line)

/-- The line scan of `convert_md_to_gmi` with its carried fence state. -/
def convertMdLines : Bool → List (List Char) → List (List Char)
  | _, [] => []
  | inCode, line :: rest =>
    if isFenceLine line then line :: convertMdLines (!inCode) rest
    else if inCode then line :: convertMdLines inCode rest
    else convertMdLine line :: convertMdLines inCode rest

/-- Embedding of `convert_md_to_gmi`. -/
def convert_md_to_gmi (content : List Char) : List Char :=
  joinNL (convertMdLines false (splitLines content))

/-- The per-line rewrite of `convert_txt_to_gmi`. -/
def convertTxtLine (line : List Char) : List Char :=
  let stripped := pyStrip line
  if startsWithL "# ".toList stripped then stripped
  else if startsWithL "- ".toList stripped &&
      (startsWithL "- http://".toList stripped || startsWithL "- https://".toList stripped) then
    "=> ".toList ++ pyStrip (stripped.drop 2)
  else if stripped.isEmpty then []
  else line

/-- Embedding of `convert_txt_to_gmi`. -/
def convert_txt_to_gmi (content : List Char) : List Char :=
  joinNL ((splitLines content).map convertTxtLine)

/-- Match of `^#{1,6}\s+` at one position (the heading indicator of
`detect_file_format`); the whitespace class includes the newline, as in
Python's `\s`. -/
def heading16At (l : List Char) : Bool :=
  let n := (l.takeWhile (· == '#')).length
  decide (1 ≤ n ∧ n ≤ 6) &&
    (match (l.drop n).head? with
     | some c => isPySpace c
     | none => false)

/-- Scan for `^#{1,6}\s+` at positions following a newline. -/
def goHeadingScan : List Char → Bool
  | [] => false
  | c :: rest => (c == '\n' && heading16At rest) || goHeadingScan rest

/-- Search for `re.search(r'^#{1,6}\s+', content, re.MULTILINE)`: the pattern
may match at the start of the content or right after any newline. -/
def hasHeadingML (content : List Char) : Bool :=
  heading16At content || goHeadingScan content

/-- Match of the bracket-paren link pattern at one position. -/
def linkDetectAt : List Char → Bool
  | '[' :: rest => (tryLinkBody rest).isSome
  | _ => false

/-- Search for `re.search(r'\[([^\]]+)\]\(([^)]+)\)', content)`. -/
def hasLinkPattern : List Char → Bool
  | [] => false
  | c :: rest => linkDetectAt (c :: rest) || hasLinkPattern rest

/-- Match of `\*\*[^*]+\*\*` at one position: two asterisks, a nonempty run
of non-asterisks, then two asterisks. -/
def boldDetectAt : List Char → Bool
  | '*' :: '*' :: rest =>
    !(rest.takeWhile (· != '*')).isEmpty &&
      (match rest.dropWhile (· != '*') with
       | '*' :: '*' :: _ => true
       | _ => false)
  | _ => false

/-- Search for `re.search(r'\*\*[^*]+\*\*', content)`. -/
def hasBoldPattern : List Char → Bool
  | [] => false
  | c :: rest => boldDetectAt (c :: rest) || hasBoldPattern rest

/-- Embedding of `detect_file_format`: `'md'` when any of the four Markdown
indicators is found, else `'txt'`. -/
def detect_file_format (content : List Char) : String :=
  if hasLinkPattern content || hasHeadingML content || hasBoldPattern content
      || containsSub "```".toList content then "md"
  else "txt"

/-!
Embedding of `sanitize_filename`, the footer-injection step, and the
navigation construction of `build_collection`.
-/

/-- Characters kept by `re.sub(r'[^\w\-_\.]', '', name)` (ASCII model of
the `\w` class: alphanumerics and underscore; plus hyphen and period). -/
def keepChar (c : Char) : Bool := c.isAlphanum || c == '_' || c == '-' || c == '.'

/-- Embedding of `sanitize_filename`: replace spaces with underscores, then
delete every character outside the kept class. -/
def sanitize_filename (name : List Char) : List Char :=
  (name.map (fun c => if c = ' ' then '_' else c)).filter keepChar

/-- Embedding of `get_footer`. -/
def get_footer : List Char := "\n---\n\ndesenvolvido por pablo murad - 2024 - 2026\n".toList

/-- The transform of `write_gmi_file` with `add_footer=True`: trim trailing
whitespace, then append the footer. -/
def addFooter (content : List Char) : List Char := pyRstrip content ++ get_footer

/-- The guarded footer-injection step of `build_collection` (lines 476-480):
append the footer only when `get_footer().strip()` does not already occur as
a substring of the content. -/
def footerStep (content : List Char) : List Char :=
  if containsSub (pyStrip get_footer) content then content else addFooter content

/-- Python `str.title()` word scan (ASCII letters as the cased characters):
the state records whether the previous character was a letter. -/
def pyTitleGo : Bool → List Char → List Char
  | _, [] => []
  | prevAlpha, c :: rest =>
    if c.isAlpha then
      (if prevAlpha then c.toLower else c.toUpper) :: pyTitleGo true rest
    else c :: pyTitleGo false rest

/-- Python `str.title()`. -/
def pyTitle (l : List Char) : List Char := pyTitleGo false l

/-- Display name used in navigation labels: `name.replace('_', ' ').title()`. -/
def displayName (name : List Char) : List Char :=
  pyTitle (name.map (fun c => if c = '_' then ' ' else c))

/-- The previous-document link line of the navigation block. -/
def mkPrev (coll : List Char) (p : List Char × List Char) : List Char :=
  "=> /collections/".toList ++ coll ++ '/' :: p.1 ++ '/' :: p.2 ++ ".gmi ← ".toList
    ++ displayName p.2

/-- The section-index link line of the navigation block. -/
def mkUp (coll sec : List Char) : List Char :=
  "=> /collections/".toList ++ coll ++ '/' :: sec ++ "/index.gmi ↑ Section index".toList

/-- The next-document link line of the navigation block. -/
def mkNext (coll : List Char) (p : List Char × List Char) : List Char :=
  "=> /collections/".toList ++ coll ++ '/' :: p.1 ++ '/' :: p.2 ++ ".gmi ".toList
    ++ displayName p.2 ++ " →".toList

/-- The flattened navigation sequence of `build_collection`: for every
section in order, the section's files paired with their sanitized names. -/
def allFilesFlat (order : List (List Char)) (files : List Char → List (List Char)) :
    List (List Char × List Char) :=
  (order.map (fun sec => (files sec).map (fun n => (sec, sanitize_filename n)))).flatten

/-- The navigation block built for the document at index `idx` of the
flattened sequence (`nav_lines` of `build_collection`). -/
def navBlock (coll : List Char) (flat : List (List Char × List Char)) (idx : Nat) :
    List (List Char) :=
  [[]]
    ++ (if 0 < idx then [mkPrev coll (flat.getD (idx - 1) ([], []))] else [])
    ++ [mkUp coll (flat.getD idx ([], [])).1]
    ++ (if idx < flat.length - 1 then [mkNext coll (flat.getD (idx + 1) ([], []))] else [])
    ++ [[], "---".toList, []]

/-- Heading test of the navigation-insertion loop:
`line.strip().startswith('#')`. -/
def isHashLine (l : List Char) : Bool :=
  match pyStrip l with
  | '#' :: _ => true
  | _ => false

/-- The insertion loop of `build_collection`: walk the lines with a
first-heading-found flag, splicing the navigation block after the first
heading line. Returns the flag and the new lines. -/
def navSpliceP (nav : List (List Char)) : Bool → List (List Char) → Bool × List (List Char)
  | found, [] => (found, [])
  | found, l :: rest =>
    if !found && isHashLine l then
      let r := navSpliceP nav true rest
      (r.1, l :: (nav ++ r.2))
    else
      let r := navSpliceP nav found rest
      (r.1, l :: r.2)

/-- Navigation insertion: splice after the first heading, or prepend when no
line of the body is a heading line. -/
def insertNav (nav : List (List Char)) (lines : List (List Char)) : List (List Char) :=
  let r := navSpliceP nav false lines
  if r.1 then r.2 else nav ++ r.2

/-!
General helper lemmas about the string utilities.
-/

theorem startsWithL_iff : ∀ (p l : List Char), startsWithL p l = true ↔ ∃ t, l = p ++ t := by
  intro p
  induction p with
  | nil => intro l; simp [startsWithL]
  | cons q qs ih =>
    intro l
    cases l with
    | nil =>
      simp [startsWithL]
    | cons c cs =>
      simp only [startsWithL, Bool.and_eq_true, beq_iff_eq]
      constructor
      · rintro ⟨rfl, h2⟩
        obtain ⟨t, rfl⟩ := (ih cs).mp h2
        exact ⟨t, rfl⟩
      · rintro ⟨t, h⟩
        rw [List.cons_append] at h
        injection h with h1 h2
        subst h1
        exact ⟨rfl, (ih cs).mpr ⟨t, h2⟩⟩

theorem startsWithL_self_append (p t : List Char) : startsWithL p (p ++ t) = true :=
  (startsWithL_iff p (p ++ t)).mpr ⟨t, rfl⟩

theorem containsSub_cons_of {p : List Char} (c : Char) {rest : List Char}
    (h : containsSub p rest = true) : containsSub p (c :: rest) = true := by
  simp only [containsSub, Bool.or_eq_true]
  exact Or.inr h

theorem containsSub_append_right {p l : List Char} (x : List Char)
    (h : containsSub p l = true) : containsSub p (x ++ l) = true := by
  induction x with
  | nil => exact h
  | cons c cs ih => exact containsSub_cons_of c ih

theorem containsSub_of_startsWith {p l : List Char} (h : startsWithL p l = true) :
    containsSub p l = true := by
  cases l with
  | nil =>
    cases p with
    | nil => rfl
    | cons q qs => simp [startsWithL] at h
  | cons c cs =>
    simp only [containsSub, Bool.or_eq_true]
    exact Or.inl h

theorem containsSub_infix (p x y : List Char) : containsSub p (x ++ (p ++ y)) = true :=
  containsSub_append_right x (containsSub_of_startsWith (startsWithL_self_append p y))

theorem takeWhile_append_all {p : Char → Bool} :
    ∀ (a l : List Char), (∀ c ∈ a, p c = true) →
      List.takeWhile p (a ++ l) = a ++ List.takeWhile p l := by
  intro a
  induction a with
  | nil => intro l _; rfl
  | cons c cs ih =>
    intro l h
    rw [List.cons_append, List.takeWhile_cons, if_pos (h c (List.mem_cons_self c cs))]
    rw [ih l (fun d hd => h d (List.mem_cons_of_mem c hd)), List.cons_append]

theorem dropWhile_append_all {p : Char → Bool} :
    ∀ (a l : List Char), (∀ c ∈ a, p c = true) →
      List.dropWhile p (a ++ l) = List.dropWhile p l := by
  intro a
  induction a with
  | nil => intro l _; rfl
  | cons c cs ih =>
    intro l h
    rw [List.cons_append, List.dropWhile_cons, if_pos (h c (List.mem_cons_self c cs))]
    exact ih l (fun d hd => h d (List.mem_cons_of_mem c hd))

theorem mem_dropWhile_imp {p : Char → Bool} {c : Char} :
    ∀ {l : List Char}, c ∈ List.dropWhile p l → c ∈ l := by
  intro l
  induction l with
  | nil => intro h; exact h
  | cons d rest ih =>
    intro h
    rw [List.dropWhile_cons] at h
    split at h
    · exact List.mem_cons_of_mem d (ih h)
    · exact h

theorem mem_pyRstrip {c : Char} {l : List Char} (h : c ∈ pyRstrip l) : c ∈ l := by
  unfold pyRstrip at h
  rw [List.mem_reverse] at h
  exact List.mem_reverse.mp (mem_dropWhile_imp h)

theorem mem_pyStrip {c : Char} {l : List Char} (h : c ∈ pyStrip l) : c ∈ l :=
  mem_dropWhile_imp (mem_pyRstrip h)

theorem dropWhile_head_false {p : Char → Bool} :
    ∀ {l : List Char} {c : Char}, (List.dropWhile p l).head? = some c → p c = false := by
  intro l
  induction l with
  | nil => intro c h; simp at h
  | cons d rest ih =>
    intro c h
    rw [List.dropWhile_cons] at h
    split at h
    · exact ih h
    next hd =>
      simp only [List.head?_cons, Option.some.injEq] at h
      subst h
      exact Bool.not_eq_true _ ▸ Bool.of_not_eq_true hd

theorem pyRstrip_getLast {l : List Char} {c : Char}
    (h : (pyRstrip l).getLast? = some c) : isPySpace c = false := by
  unfold pyRstrip at h
  rw [List.getLast?_reverse] at h
  exact dropWhile_head_false h

theorem pyRstrip_eq_self {l : List Char}
    (h : ∀ c, l.getLast? = some c → isPySpace c = false) : pyRstrip l = l := by
  unfold pyRstrip
  cases hr : l.reverse with
  | nil =>
    rw [List.reverse_eq_nil_iff] at hr
    subst hr
    rfl
  | cons c t =>
    have hc : l.getLast? = some c := by
      rw [← List.head?_reverse, hr]
      rfl
    rw [List.dropWhile_cons, if_neg (by simp [h c hc])]
    rw [← hr, List.reverse_reverse]

/-!
Claim theorems.
-/

theorem footer_in_footer : containsSub (pyStrip get_footer) get_footer = true := by decide

/-- C2: the guarded footer-injection step of `build_collection` is
idempotent: applying it twice to any content yields exactly the result of
applying it once, because the appended footer contains the attribution text
that the guard checks for. -/
theorem c2_footer_idempotent (content : List Char) :
    footerStep (footerStep content) = footerStep content := by
  by_cases h : containsSub (pyStrip get_footer) content = true
  · have h1 : footerStep content = content := by rw [footerStep, if_pos h]
    rw [h1]
    exact h1
  · have h1 : footerStep content = addFooter content := by rw [footerStep, if_neg h]
    have h2 : containsSub (pyStrip get_footer) (addFooter content) = true := by
      unfold addFooter
      exact containsSub_append_right _ footer_in_footer
    rw [h1, footerStep, if_pos h2]

/-- C10: the filename sanitizer is idempotent, and every character of its
output is in the kept class (alphanumeric, underscore, hyphen or period) and
in particular is never a space. -/
theorem c10_sanitize_idempotent (s : List Char) :
    sanitize_filename (sanitize_filename s) = sanitize_filename s ∧
      ∀ c ∈ sanitize_filename s, keepChar c = true ∧ c ≠ ' ' := by
  have hmem : ∀ c ∈ sanitize_filename s, keepChar c = true := by
    intro c hc
    exact (List.mem_filter.mp hc).2
  have hns : ∀ c ∈ sanitize_filename s, c ≠ ' ' := by
    intro c hc he
    have := hmem c hc
    rw [he] at this
    simp [keepChar] at this
  constructor
  · show (List.filter keepChar
      ((sanitize_filename s).map (fun c => if c = ' ' then '_' else c))) = sanitize_filename s
    have hmap : (sanitize_filename s).map (fun c => if c = ' ' then '_' else c)
        = sanitize_filename s := by
      have : ∀ c ∈ sanitize_filename s, (fun c => if c = ' ' then '_' else c) c = id c := by
        intro c hc
        simp [hns c hc]
      rw [List.map_congr_left this, List.map_id]
    rw [hmap]
    exact List.filter_eq_self.mpr hmem
  · exact fun c hc => ⟨hmem c hc, hns c hc⟩

/-- C10 witness at a concrete input. -/
theorem c10_sanitize_idempotent_witness :
    sanitize_filename (sanitize_filename "My File (v2).txt!".toList)
        = sanitize_filename "My File (v2).txt!".toList ∧
      (keepChar 'M' = true ∧ 'M' ≠ ' ') :=
  ⟨(c10_sanitize_idempotent "My File (v2).txt!".toList).1,
   (c10_sanitize_idempotent "My File (v2).txt!".toList).2 'M' (by decide)⟩

/-- C4: format detection is a pure function of the text that returns `'md'`
exactly when at least one of the four indicators is present — a bracket-paren
link pattern, a line starting with one to six `#` followed by whitespace, a
double-asterisk bold span, or a triple-backtick fence — and `'txt'`
otherwise; any single indicator is sufficient. The two concrete examples of
the specification are included. -/
theorem c4_detect_format :
    (∀ content : List Char,
      detect_file_format content = "md" ↔
        (hasLinkPattern content = true ∨ hasHeadingML content = true ∨
          hasBoldPattern content = true ∨ containsSub "```".toList content = true)) ∧
    (∀ content : List Char,
      detect_file_format content = "txt" ↔
        ¬(hasLinkPattern content = true ∨ hasHeadingML content = true ∨
          hasBoldPattern content = true ∨ containsSub "```".toList content = true)) ∧
    detect_file_format "Hello\nWorld\n".toList = "txt" ∧
    detect_file_format "# Title\n\nSee [here](http://x)\n".toList = "md" := by
  refine ⟨?_, ?_, by decide, by decide⟩
  · intro content
    unfold detect_file_format
    split
    next h =>
      simp only [Bool.or_eq_true] at h
      exact iff_of_true rfl (by tauto)
    next h =>
      simp only [Bool.or_eq_true, not_or] at h
      exact iff_of_false (by decide) (by tauto)
  · intro content
    unfold detect_file_format
    split
    next h =>
      simp only [Bool.or_eq_true] at h
      exact iff_of_false (by decide) (by tauto)
    next h =>
      simp only [Bool.or_eq_true, not_or] at h
      exact iff_of_true rfl (by tauto)

/-- C4 witness: a single indicator (a fence) forces the rich classification. -/
theorem c4_detect_format_witness : detect_file_format "x ``` y".toList = "md" :=
  (c4_detect_format.1 "x ``` y".toList).mpr (Or.inr (Or.inr (Or.inr (by decide))))

theorem navSpliceP_found_true (nav : List (List Char)) :
    ∀ lines, navSpliceP nav true lines = (true, lines) := by
  intro lines
  induction lines with
  | nil => rfl
  | cons l rest ih => simp [navSpliceP, ih]

theorem navSpliceP_flag (nav : List (List Char)) :
    ∀ lines found, (navSpliceP nav found lines).1 = (found || lines.any isHashLine) := by
  intro lines
  induction lines with
  | nil => intro found; simp [navSpliceP]
  | cons l rest ih =>
    intro found
    by_cases hf : found
    · subst hf
      simp [navSpliceP, navSpliceP_found_true]
    · have hf2 : found = false := Bool.eq_false_iff.mpr hf
      subst hf2
      by_cases hl : isHashLine l
      · simp [navSpliceP, hl, navSpliceP_found_true nav rest]
      · have hl2 : isHashLine l = false := Bool.eq_false_iff.mpr hl
        simp [navSpliceP, hl2, ih]

theorem navSpliceP_no_heading (nav : List (List Char)) :
    ∀ lines, lines.any isHashLine = false → navSpliceP nav false lines = (false, lines) := by
  intro lines
  induction lines with
  | nil => intro _; rfl
  | cons l rest ih =>
    intro h
    rw [List.any_cons, Bool.or_eq_false_iff] at h
    simp [navSpliceP, h.1, ih h.2]

/-- C9: the navigation block is inserted exactly once — immediately after the
first line whose trimmed form starts with a heading marker, all other lines
preserved in order; when no line of the body is a heading line, the block is
prepended to the very start. The second conjunct states that once the
first heading has been found, the rest of the scan copies lines unchanged
(the insertion happens at most once). -/
theorem c9_insert_nav (nav lines : List (List Char)) :
    insertNav nav lines =
      (if lines.any isHashLine then
        lines.takeWhile (fun l => !isHashLine l)
          ++ (lines.dropWhile (fun l => !isHashLine l)).take 1
          ++ nav ++ (lines.dropWhile (fun l => !isHashLine l)).drop 1
      else nav ++ lines) ∧
    navSpliceP nav true lines = (true, lines) := by
  refine ⟨?_, navSpliceP_found_true nav lines⟩
  induction lines with
  | nil => simp [insertNav, navSpliceP]
  | cons l rest ih =>
    by_cases hl : isHashLine l = true
    · have h1 : navSpliceP nav false (l :: rest) = (true, l :: (nav ++ rest)) := by
        simp [navSpliceP, hl, navSpliceP_found_true nav rest]
      simp [insertNav, h1, List.any_cons, hl, List.takeWhile_cons, List.dropWhile_cons]
    · have hl2 : isHashLine l = false := Bool.eq_false_iff.mpr hl
      have h1 : navSpliceP nav false (l :: rest)
          = ((navSpliceP nav false rest).1, l :: (navSpliceP nav false rest).2) := by
        simp [navSpliceP, hl2]
      cases ha : rest.any isHashLine with
      | true =>
        have hflag : (navSpliceP nav false rest).1 = true := by
          rw [navSpliceP_flag nav rest false, ha]
          rfl
        have hrest : insertNav nav rest = (navSpliceP nav false rest).2 := by
          rw [insertNav]
          simp [hflag]
        rw [ha] at ih
        simp only [if_pos rfl] at ih
        rw [hrest] at ih
        have hgoal : insertNav nav (l :: rest) = l :: (navSpliceP nav false rest).2 := by
          rw [insertNav, h1]
          simp [hflag]
        rw [hgoal, List.any_cons, hl2, ha]
        simp only [Bool.false_or, if_pos rfl]
        rw [List.takeWhile_cons, List.dropWhile_cons, hl2]
        simp [ih]
      | false =>
        have h2 : navSpliceP nav false rest = (false, rest) := navSpliceP_no_heading nav rest ha
        have hgoal : insertNav nav (l :: rest) = nav ++ (l :: rest) := by
          rw [insertNav, h1, h2]
          simp
        rw [hgoal, List.any_cons, hl2, ha]
        simp

theorem convertMdLines_nofence :
    ∀ (pre rest : List (List Char)), (∀ l ∈ pre, isFenceLine l = false) →
      convertMdLines false (pre ++ rest) = pre.map convertMdLine ++ convertMdLines false rest := by
  intro pre
  induction pre with
  | nil => intro rest _; rfl
  | cons l pre2 ih =>
    intro rest h
    have hl : isFenceLine l = false := h l (List.mem_cons_self l pre2)
    rw [List.cons_append]
    show convertMdLines false (l :: (pre2 ++ rest)) = _
    rw [convertMdLines, if_neg (by simp [hl]), if_neg (by simp)]
    rw [ih rest (fun d hd => h d (List.mem_cons_of_mem l hd)), List.map_cons, List.cons_append]

theorem convertMdLines_infence :
    ∀ (body : List (List Char)) (f2 : List Char) (post : List (List Char)),
      (∀ l ∈ body, isFenceLine l = false) → isFenceLine f2 = true →
      convertMdLines true (body ++ f2 :: post) = body ++ f2 :: convertMdLines false post := by
  intro body
  induction body with
  | nil =>
    intro f2 post _ hf
    rw [List.nil_append]
    rw [convertMdLines, if_pos hf]
    simp
  | cons l body2 ih =>
    intro f2 post h hf
    have hl : isFenceLine l = false := h l (List.mem_cons_self l body2)
    rw [List.cons_append, convertMdLines, if_neg (by simp [hl]), if_pos rfl]
    rw [ih f2 post (fun d hd => h d (List.mem_cons_of_mem l hd)) hf, List.cons_append]

/-- C5: for a document whose fence markers pair up, every line inside a
fenced code block, and each fence line itself, passes through the rich-text
conversion byte-identical, while lines before the fence are converted and
the scan continues after the closing fence in the outside-fence state. -/
theorem c5_fence_passthrough (pre : List (List Char)) (f1 : List Char)
    (body : List (List Char)) (f2 : List Char) (post : List (List Char))
    (hpre : ∀ l ∈ pre, isFenceLine l = false)
    (hf1 : isFenceLine f1 = true)
    (hbody : ∀ l ∈ body, isFenceLine l = false)
    (hf2 : isFenceLine f2 = true) :
    convertMdLines false (pre ++ f1 :: (body ++ f2 :: post)) =
      pre.map convertMdLine ++ f1 :: (body ++ f2 :: convertMdLines false post) := by
  rw [convertMdLines_nofence pre _ hpre]
  congr 1
  rw [convertMdLines, if_pos hf1]
  rw [show (!false) = true from rfl]
  rw [convertMdLines_infence body f2 post hbody hf2]

/-- C5 witness at a concrete document with one fenced block. -/
theorem c5_fence_passthrough_witness :
    convertMdLines false
        ["a **b**".toList, "```".toList, "**x** [a](b)".toList, "```".toList, "- [c](d)".toList] =
      ["a b".toList, "```".toList, "**x** [a](b)".toList, "```".toList, "* [c](d)".toList] := by
  have h := c5_fence_passthrough ["a **b**".toList] "```".toList ["**x** [a](b)".toList]
    "```".toList ["- [c](d)".toList] (by decide) (by decide) (by decide) (by decide)
  have e : ["a **b**".toList, "```".toList, "**x** [a](b)".toList, "```".toList,
      "- [c](d)".toList] =
      ["a **b**".toList] ++ "```".toList :: (["**x** [a](b)".toList] ++ "```".toList ::
        ["- [c](d)".toList]) := by decide
  rw [e, h]
  decide

theorem splitLines_ne_nil : ∀ l : List Char, splitLines l ≠ [] := by
  intro l
  cases l with
  | nil => simp [splitLines]
  | cons c rest =>
    rw [splitLines]
    split
    · simp
    · split <;> simp

theorem mem_splitLines_no_nl : ∀ (l : List Char) (x : List Char),
    x ∈ splitLines l → '\n' ∉ x := by
  intro l
  induction l with
  | nil =>
    intro x hx
    simp [splitLines] at hx
    simp [hx]
  | cons c rest ih =>
    intro x hx
    rw [splitLines] at hx
    split at hx
    · rcases List.mem_cons.mp hx with h | h
      · simp [h]
      · exact ih x h
    next hc =>
      split at hx
      next hm => exact absurd hm (splitLines_ne_nil rest)
      next l0 ls0 hm =>
        rcases List.mem_cons.mp hx with h | h
        · subst h
          intro hmem
          rcases List.mem_cons.mp hmem with h2 | h2
          · exact hc h2.symm
          · exact ih l0 (hm ▸ List.mem_cons_self l0 ls0) h2
        · exact ih x (hm ▸ List.mem_cons_of_mem l0 h)

theorem splitLines_single_no_nl : ∀ l : List Char, '\n' ∉ l → splitLines l = [l] := by
  intro l
  induction l with
  | nil => intro _; rfl
  | cons c rest ih =>
    intro h
    have hc : c ≠ '\n' := fun he => h (he ▸ List.mem_cons_self c rest)
    rw [splitLines, if_neg hc, ih (fun hm => h (List.mem_cons_of_mem c hm))]

theorem splitLines_append_nl : ∀ (l r : List Char), '\n' ∉ l →
    splitLines (l ++ '\n' :: r) = l :: splitLines r := by
  intro l
  induction l with
  | nil => intro r _; simp [splitLines]
  | cons c rest ih =>
    intro r h
    have hc : c ≠ '\n' := fun he => h (he ▸ List.mem_cons_self c rest)
    rw [List.cons_append, splitLines, if_neg hc,
      ih r (fun hm => h (List.mem_cons_of_mem c hm))]

theorem splitLines_joinNL : ∀ ls : List (List Char), ls ≠ [] →
    (∀ l ∈ ls, '\n' ∉ l) → splitLines (joinNL ls) = ls := by
  intro ls
  induction ls with
  | nil => intro h _; exact absurd rfl h
  | cons l ls2 ih =>
    intro _ h
    cases ls2 with
    | nil =>
      show splitLines (joinNL [l]) = [l]
      exact splitLines_single_no_nl l (h l (List.mem_cons_self l []))
    | cons l2 ls3 =>
      show splitLines (l ++ '\n' :: joinNL (l2 :: ls3)) = l :: l2 :: ls3
      rw [splitLines_append_nl l _ (h l (List.mem_cons_self l (l2 :: ls3)))]
      rw [ih (by simp) (fun d hd => h d (List.mem_cons_of_mem l hd))]

theorem convertTxtLine_no_nl {line : List Char} (h : '\n' ∉ line) :
    '\n' ∉ convertTxtLine line := by
  simp only [convertTxtLine]
  split
  · exact fun hm => h (mem_pyStrip hm)
  · split
    · intro hm
      rcases List.mem_append.mp hm with h2 | h2
      · simp at h2
      · exact h (mem_pyStrip (List.mem_of_mem_drop (mem_pyStrip h2)))
    · split
      · simp
      · exact h

/-- C8: for every plain-text document, the output lines are exactly the
per-line conversions, and each line whose trimmed form starts with `- `
immediately followed by `http://` or `https://` is converted to exactly
`=> ` followed by the scheme-prefixed target (the trimmed line with the
leading `- ` removed) and nothing else. -/
theorem c8_txt_link_lines :
    (∀ content : List Char,
      splitLines (convert_txt_to_gmi content) = (splitLines content).map convertTxtLine) ∧
    (∀ line : List Char,
      (startsWithL "- http://".toList (pyStrip line)
          || startsWithL "- https://".toList (pyStrip line)) = true →
        convertTxtLine line = "=> ".toList ++ (pyStrip line).drop 2) := by
  constructor
  · intro content
    unfold convert_txt_to_gmi
    apply splitLines_joinNL
    · intro hmap
      exact splitLines_ne_nil content (List.map_eq_nil_iff.mp hmap)
    · intro l hl
      obtain ⟨x, hx, rfl⟩ := List.mem_map.mp hl
      exact convertTxtLine_no_nl (mem_splitLines_no_nl content x hx)
  · intro line hor
    have hd : ∃ u, pyStrip line = '-' :: ' ' :: 'h' :: u := by
      rcases Bool.or_eq_true_iff.mp hor with h | h
      · obtain ⟨t, ht⟩ := (startsWithL_iff _ _).mp h
        exact ⟨"ttp://".toList ++ t, by rw [ht]; rfl⟩
      · obtain ⟨t, ht⟩ := (startsWithL_iff _ _).mp h
        exact ⟨"ttps://".toList ++ t, by rw [ht]; rfl⟩
    obtain ⟨u, hu⟩ := hd
    have hb1 : startsWithL "# ".toList (pyStrip line) = false := by rw [hu]; rfl
    have hb2 : startsWithL "- ".toList (pyStrip line) = true := by rw [hu]; rfl
    have hstrip : pyStrip ((pyStrip line).drop 2) = (pyStrip line).drop 2 := by
      have hlast : ∀ c, (pyStrip line).getLast? = some c → isPySpace c = false := by
        intro c hc
        unfold pyStrip at hc
        exact pyRstrip_getLast hc
      have hdrop : (pyStrip line).drop 2 = 'h' :: u := by rw [hu]; rfl
      have hlast2 : ∀ c, ('h' :: u).getLast? = some c → isPySpace c = false := by
        intro c hc
        apply hlast
        rw [hu, List.getLast?_cons_cons, List.getLast?_cons_cons]
        exact hc
      rw [hdrop]
      show pyRstrip (pyLstrip ('h' :: u)) = 'h' :: u
      have hl : pyLstrip ('h' :: u) = 'h' :: u := by
        unfold pyLstrip
        rw [List.dropWhile_cons, if_neg (by decide)]
      rw [hl]
      exact pyRstrip_eq_self hlast2
    simp only [convertTxtLine]
    rw [hb1, hb2, hor]
    simp only [Bool.false_eq_true, if_false, Bool.true_and]
    rw [hstrip]
    simp

/-- C8 witness at a concrete line with surrounding whitespace. -/
theorem c8_txt_link_lines_witness :
    convertTxtLine "  - https://example.com  ".toList = "=> https://example.com".toList := by
  have h := c8_txt_link_lines.2 "  - https://example.com  ".toList (by decide)
  rw [h]
  decide

/-- C3: for every collection, the flattened navigation sequence is the
concatenation of the sections' document lists in section order, and the
navigation block at index `idx` consists of a blank line, a previous-document
link exactly when `idx > 0` (targeting index `idx - 1`), the up link to the
current section's index, a next-document link exactly when `idx + 1` is still
an index (targeting index `idx + 1`), and the blank/rule/blank frame; the
block length accounts for every line, so no other link is present. -/
theorem c3_navigation (coll : List Char) (order : List (List Char))
    (files : List Char → List (List Char)) (idx : Nat)
    (hidx : idx < (allFilesFlat order files).length) :
    allFilesFlat order files =
      (order.map (fun sec => (files sec).map (fun n => (sec, sanitize_filename n)))).flatten ∧
    navBlock coll (allFilesFlat order files) idx =
      [[]]
        ++ (if 0 < idx then
              [mkPrev coll ((allFilesFlat order files).getD (idx - 1) ([], []))] else [])
        ++ [mkUp coll ((allFilesFlat order files).getD idx ([], [])).1]
        ++ (if idx + 1 < (allFilesFlat order files).length then
              [mkNext coll ((allFilesFlat order files).getD (idx + 1) ([], []))] else [])
        ++ [[], "---".toList, []] ∧
    (navBlock coll (allFilesFlat order files) idx).length =
      5 + (if 0 < idx then 1 else 0)
        + (if idx + 1 < (allFilesFlat order files).length then 1 else 0) ∧
    (0 < idx → (navBlock coll (allFilesFlat order files) idx).getD 1 []
      = mkPrev coll ((allFilesFlat order files).getD (idx - 1) ([], []))) ∧
    (idx = 0 → (navBlock coll (allFilesFlat order files) idx).getD 1 []
      = mkUp coll ((allFilesFlat order files).getD idx ([], [])).1) ∧
    mkUp coll ((allFilesFlat order files).getD idx ([], [])).1
      ∈ navBlock coll (allFilesFlat order files) idx ∧
    (idx + 1 < (allFilesFlat order files).length →
      mkNext coll ((allFilesFlat order files).getD (idx + 1) ([], []))
        ∈ navBlock coll (allFilesFlat order files) idx) := by
  have hiff : (idx < (allFilesFlat order files).length - 1)
      = (idx + 1 < (allFilesFlat order files).length) := by
    apply propext
    omega
  refine ⟨rfl, ?_, ?_, ?_, ?_, ?_, ?_⟩
  · rw [navBlock]
    simp only [hiff]
  · rw [navBlock]
    simp only [hiff]
    by_cases h1 : 0 < idx <;> by_cases h2 : idx + 1 < (allFilesFlat order files).length <;>
      simp [h1, h2]
  · intro h1
    rw [navBlock]
    simp [h1]
  · intro h0
    rw [navBlock]
    simp [h0]
  · rw [navBlock]
    by_cases h1 : 0 < idx <;> simp [h1]
  · intro h2
    rw [navBlock]
    simp only [hiff]
    by_cases h1 : 0 < idx <;> simp [h1, h2]

/-- Example collection of the specification: sections `[A, B]` with documents
`[a1, a2]` and `[b1]`. -/
def exOrder : List (List Char) := ["A".toList, "B".toList]

/-- Section-to-documents map of the example collection. -/
def exFiles (s : List Char) : List (List Char) :=
  if s = "A".toList then ["a1".toList, "a2".toList]
  else if s = "B".toList then ["b1".toList]
  else []

/-- C3 witness: on the example collection the flattened order is
`a1, a2, b1`; `a1`'s block has no previous link, `a2` links back to `a1` and
forward to `b1`, and `b1`'s block has no next link. -/
theorem c3_navigation_witness :
    allFilesFlat exOrder exFiles =
      [("A".toList, "a1".toList), ("A".toList, "a2".toList), ("B".toList, "b1".toList)] ∧
    navBlock "c".toList (allFilesFlat exOrder exFiles) 0 =
      [[], mkUp "c".toList "A".toList, mkNext "c".toList ("A".toList, "a2".toList),
        [], "---".toList, []] ∧
    navBlock "c".toList (allFilesFlat exOrder exFiles) 1 =
      [[], mkPrev "c".toList ("A".toList, "a1".toList), mkUp "c".toList "A".toList,
        mkNext "c".toList ("B".toList, "b1".toList), [], "---".toList, []] ∧
    navBlock "c".toList (allFilesFlat exOrder exFiles) 2 =
      [[], mkPrev "c".toList ("A".toList, "a2".toList), mkUp "c".toList "B".toList,
        [], "---".toList, []] ∧
    ((0 < 1 → (navBlock "c".toList (allFilesFlat exOrder exFiles) 1).getD 1 []
        = mkPrev "c".toList ((allFilesFlat exOrder exFiles).getD 0 ([], []))) ∧
      mkUp "c".toList ((allFilesFlat exOrder exFiles).getD 1 ([], [])).1
        ∈ navBlock "c".toList (allFilesFlat exOrder exFiles) 1) :=
  ⟨by decide, by decide, by decide, by decide,
    (c3_navigation "c".toList exOrder exFiles 1 (by decide)).2.2.2.1,
    (c3_navigation "c".toList exOrder exFiles 1 (by decide)).2.2.2.2.2.1⟩

theorem tryLinkBody_exact {T U post : List Char}
    (hT : T ≠ []) (hTm : ']' ∉ T) (hU : U ≠ []) (hUm : ')' ∉ U) :
    tryLinkBody (T ++ ']' :: '(' :: (U ++ ')' :: post)) = some (T, U, post) := by
  have hTp : ∀ c ∈ T, (c != ']') = true := by
    intro c hc
    simp only [bne_iff_ne, ne_eq]
    exact fun he => hTm (he ▸ hc)
  have hUp : ∀ c ∈ U, (c != ')') = true := by
    intro c hc
    simp only [bne_iff_ne, ne_eq]
    exact fun he => hUm (he ▸ hc)
  have h1 : List.takeWhile (· != ']') (T ++ ']' :: '(' :: (U ++ ')' :: post)) = T := by
    rw [takeWhile_append_all T _ hTp, List.takeWhile_cons, if_neg (by simp)]
    simp
  have h2 : List.dropWhile (· != ']') (T ++ ']' :: '(' :: (U ++ ')' :: post))
      = ']' :: '(' :: (U ++ ')' :: post) := by
    rw [dropWhile_append_all T _ hTp, List.dropWhile_cons, if_neg (by simp)]
  have h3 : List.takeWhile (· != ')') (U ++ ')' :: post) = U := by
    rw [takeWhile_append_all U _ hUp, List.takeWhile_cons, if_neg (by simp)]
    simp
  have h4 : List.dropWhile (· != ')') (U ++ ')' :: post) = ')' :: post := by
    rw [dropWhile_append_all U _ hUp, List.dropWhile_cons, if_neg (by simp)]
  simp only [tryLinkBody, h1, h2, h3, h4]
  rw [if_neg (by simp [hT]), if_neg (by simp [hU])]

theorem subLinks_cons_nolb {c : Char} (rest : List Char) (hc : c ≠ '[') :
    subLinks (c :: rest) = c :: subLinks rest := by
  unfold subLinks
  rw [runScan_cons linkStep_shrinks]
  simp [linkStep, hc]

theorem subLinks_pre {pre : List Char} (h : '[' ∉ pre) :
    ∀ l, subLinks (pre ++ l) = pre ++ subLinks l := by
  induction pre with
  | nil => intro l; rfl
  | cons c pre2 ih =>
    intro l
    have hc : c ≠ '[' := fun he => h (he ▸ List.mem_cons_self c pre2)
    rw [List.cons_append, subLinks_cons_nolb _ hc,
      ih (fun hm => h (List.mem_cons_of_mem c hm)) l, List.cons_append]

theorem subLinks_match {T U post : List Char}
    (hT : T ≠ []) (hTm : ']' ∉ T) (hU : U ≠ []) (hUm : ')' ∉ U) :
    subLinks ('[' :: (T ++ ']' :: '(' :: (U ++ ')' :: post)))
      = ("=> ".toList ++ U ++ ' ' :: T) ++ subLinks post := by
  unfold subLinks
  rw [runScan_cons linkStep_shrinks]
  simp only [linkStep, if_pos rfl, tryLinkBody_exact hT hTm hU hUm]
  simp

/-- C1 amended: outside fences, every occurrence of `[T](U)` on a line that
is not classified as a heading (one to three `#` plus whitespace) or a list
item (`-` plus whitespace) is rewritten to `=> U T`, with the remaining
bold/italic strips applied afterwards; occurrences on heading or list-item
lines are not rewritten (see the counterexample). The scan continues after
the match, so multiple links on one line are all rewritten. -/
theorem c1_links_amended (pre T U post : List Char)
    (hpre : '[' ∉ pre) (hT : T ≠ []) (hTm : ']' ∉ T) (hU : U ≠ []) (hUm : ')' ∉ U)
    (hh : isHeading13 (pyStrip (pre ++ '[' :: (T ++ ']' :: '(' :: (U ++ ')' :: post)))) = false)
    (hl : isListLine (pyStrip (pre ++ '[' :: (T ++ ']' :: '(' :: (U ++ ')' :: post)))) = false) :
    convertMdLine (pre ++ '[' :: (T ++ ']' :: '(' :: (U ++ ')' :: post))) =
      subItalNA (subBold (pre ++ (("=> ".toList ++ U ++ ' ' :: T) ++ subLinks post))) := by
  have hsub : subLinks (pre ++ '[' :: (T ++ ']' :: '(' :: (U ++ ')' :: post)))
      = pre ++ (("=> ".toList ++ U ++ ' ' :: T) ++ subLinks post) := by
    rw [subLinks_pre hpre, subLinks_match hT hTm hU hUm]
  have hcontains : containsSub [']', '(']
      (pre ++ '[' :: (T ++ ']' :: '(' :: (U ++ ')' :: post))) = true := by
    have e : pre ++ '[' :: (T ++ ']' :: '(' :: (U ++ ')' :: post))
        = (pre ++ '[' :: T) ++ ([']', '('] ++ (U ++ ')' :: post)) := by
      simp
    rw [e]
    exact containsSub_infix [']', '('] (pre ++ '[' :: T) (U ++ ')' :: post)
  simp only [convertMdLine]
  rw [hh, hl, hcontains, hsub]
  simp

/-- C1 counterexample: on a list-item line and on a heading line the
bracket-paren pattern is NOT rewritten (the list and heading branches fire
before the link branch), so the claimed output/input link-count equality
fails: the input holds one pattern and the output holds no link line. -/
theorem c1_links_cex :
    convert_md_to_gmi "- [a](b)".toList = "* [a](b)".toList ∧
    convert_md_to_gmi "# [a](b)".toList = "# [a](b)".toList ∧
    countLinkOcc "- [a](b)".toList = 1 ∧
    containsSub "=>".toList (convert_md_to_gmi "- [a](b)".toList) = false := by
  refine ⟨by decide, by decide, by decide, by decide⟩

/-- C1 witness: a line with two links has both rewritten. -/
theorem c1_links_amended_witness :
    convertMdLine "x [a](b) and [c](d)".toList = "x => b a and => d c".toList := by
  have e : "x [a](b) and [c](d)".toList
      = "x ".toList ++ '[' :: ("a".toList ++ ']' :: '(' :: ("b".toList ++ ')' ::
          " and [c](d)".toList)) := by decide
  rw [e]
  rw [c1_links_amended "x ".toList "a".toList "b".toList " and [c](d)".toList
    (by decide) (by decide) (by decide) (by decide) (by decide) (by decide) (by decide)]
  decide

/-- C6: evaluation at the failing input. The list branch applies the plain
italic pattern with no lookarounds, so on `- *hi*` the emitted `* ` list
marker pairs with the asterisk of `*hi*` and is consumed: the code outputs
` hi*`, while the claim (and the function's own docstring, which says lists
are preserved) expects `* hi`. -/
theorem c6_list_marker_eaten :
    convertMdLine "- *hi*".toList = " hi*".toList ∧
    convert_md_to_gmi "- *hi*".toList = " hi*".toList ∧
    convertMdLine "- *hi*".toList ≠ "* hi".toList := by
  refine ⟨by decide, by decide, by decide⟩

theorem boldStep_emits : ∀ (st : Unit) (c : Char) (rest : List Char),
    (boldStep st c rest).1 ≠ [] := by
  intro st c rest
  simp only [boldStep]
  split
  · split <;> simp
  · simp

theorem italNAStep_emits : ∀ (st : Bool) (c : Char) (rest : List Char),
    (italNAStep st c rest).1 ≠ [] := by
  intro st c rest
  simp only [italNAStep]
  split
  · split
    · simp
    · split
      · simp
      next hne =>
        split
        next rem heq =>
          split
          · simp
          · show List.takeWhile (· != '*') rest ≠ []
            intro he
            rw [List.isEmpty_iff] at hne
            exact hne he
        · simp
  · simp

theorem runScan_ne_nil {σ : Type} {step : σ → Char → List Char → List Char × σ × List Char}
    (Hs : Shrinks step) (He : ∀ st c rest, (step st c rest).1 ≠ []) :
    ∀ (st : σ) (l : List Char), l ≠ [] → runScan step st l ≠ [] := by
  intro st l hl
  cases l with
  | nil => exact absurd rfl hl
  | cons c rest =>
    rw [runScan_cons Hs]
    exact List.append_ne_nil_of_left_ne_nil (He st c rest) _

/-- C7 amended: a line outside fences that is not a heading, list item, link
line or blank is replaced by a blank line if and only if its original
trimmed form is exactly `---` (exactly three hyphens — not three or more);
otherwise it is emitted with the bold and italic strips applied. -/
theorem c7_hr_amended (line : List Char)
    (hh : isHeading13 (pyStrip line) = false)
    (hl : isListLine (pyStrip line) = false)
    (hc : containsSub [']', '('] line = false)
    (hne : pyStrip line ≠ []) :
    (convertMdLine line = [] ↔ pyStrip line = "---".toList) ∧
    (pyStrip line ≠ "---".toList → convertMdLine line = subItalNA (subBold line)) := by
  have hlinene : line ≠ [] := by
    intro he
    rw [he] at hne
    exact hne rfl
  have hbne : subItalNA (subBold line) ≠ [] := by
    show runScan italNAStep false (subBold line) ≠ []
    exact runScan_ne_nil italNAStep_shrinks italNAStep_emits false _
      (runScan_ne_nil boldStep_shrinks boldStep_emits () line hlinene)
  simp only [convertMdLine]
  rw [hh, hl, hc]
  simp only [Bool.false_eq_true, if_false]
  rw [if_neg (by simp [hne])]
  by_cases hd : pyStrip line = "---".toList
  · rw [if_pos hd]
    exact ⟨Iff.intro (fun _ => hd) (fun _ => rfl), fun hcon => absurd hd hcon⟩
  · rw [if_neg hd]
    exact ⟨Iff.intro (fun he => absurd he hbne) (fun hd2 => absurd hd2 hd),
      fun _ => rfl⟩

/-- C7 counterexample: a trimmed line of four hyphens is a horizontal-rule
marker by the claim (three or more hyphens) but the code compares against
exactly `---`, so `----` passes through instead of becoming blank. -/
theorem c7_hr_cex :
    convert_md_to_gmi "----".toList = "----".toList ∧
    convertMdLine "----".toList ≠ [] := by
  refine ⟨by decide, by decide⟩

/-- C7 witness: exactly three hyphens become a blank line; a non-rule text
line is emitted with its strips applied. -/
theorem c7_hr_amended_witness :
    convertMdLine "  ---  ".toList = [] ∧
    convertMdLine "a *i* b".toList = subItalNA (subBold "a *i* b".toList) :=
  ⟨(c7_hr_amended "  ---  ".toList (by decide) (by decide) (by decide) (by decide)).1.mpr
      (by decide),
   (c7_hr_amended "a *i* b".toList (by decide) (by decide) (by decide) (by decide)).2
      (by decide)⟩
